import Mathlib

/-!
Verification development for the furcate configuration permutation engine
(src/furcate/config_reader.py).

The embedding models JSON-like configuration documents as ordered association
lists from string keys to values (`Val`), matching Python dict semantics:
insertion order is preserved, keys are unique in every dict the program builds,
`d[k] = v` updates in place or appends (`dictSet`), and `d[k]` lookup is
`lookup` (with `Option` standing for the possibility of a Python `KeyError`).
Fallible operations return `Except Unit` where the source can raise.

Configuration values are scalars, arrays of scalars, or nested objects of
scalars (enough to cover the documents the program manipulates, including the
"meta" sub-object); `isinstance(value, list)` in the source corresponds to the
`Val.list` constructor.
-/

namespace Furcate

/-- A JSON scalar: string, integer, or boolean. -/
inductive Scalar where
  | str (s : String)
  | int (n : Int)
  | bool (b : Bool)
deriving DecidableEq, Repr

/-- A configuration value: a scalar, an array of scalars (the permutable case,
`isinstance(value, list)` in the source) or a nested object of scalars (such as
the value of the "meta" key). -/
inductive Val where
  | scalar (s : Scalar)
  | list (vs : List Scalar)
  | dict (kvs : List (String × Scalar))
deriving DecidableEq, Repr

/-- A Python dict over `Val` values, as an ordered association list. -/
abbrev Dict := List (String × Val)

/-- Python dict lookup `d[k]`: `none` models a raised `KeyError`. -/
def lookup : Dict → String → Option Val
  | [], _ => none
  | (k1, v) :: rest, k => if k1 = k then some v else lookup rest k

/-- Python dict assignment `d[k] = v`: update in place when the key exists
(keeping its position), otherwise append at the end. -/
def dictSet : Dict → String → Val → Dict
  | [], k, v => [(k, v)]
  | (k1, v1) :: rest, k, v =>
      if k1 = k then (k1, v) :: rest else (k1, v1) :: dictSet rest k v

mutual

/-- `ConfigReader._gen_config_permutations(index, config, enumerated_data)`:
recursively expands the enumerated document entries from `index` on (here the
suffix `ed` of the document's (key, value) list), building every permutation of
`config`.  A list value records its key into the mutable `self.permutable_keys`
set (threaded here as `pk`) and branches once per element; any other value is
treated as the single candidate `[value]`. -/
def genPerms : List (String × Val) → Dict → Finset String → List Dict × Finset String
  | [], config, pk => ([config], pk)
  | (k, Val.list vs) :: rest, config, pk =>
      genPermsLoop rest k (vs.map Val.scalar) config (insert k pk)
  | (k, Val.scalar s) :: rest, config, pk =>
      genPermsLoop rest k [Val.scalar s] config pk
  | (k, Val.dict d) :: rest, config, pk =>
      genPermsLoop rest k [Val.dict d] config pk
termination_by ed _ _ => (ed.length, 0)

/-- The `for value in values` loop body of `_gen_config_permutations`: for each
candidate value, set it on a copy of the configuration and recurse into the
rest of the document, concatenating the results (`result.extend(...)`) and
threading the mutable permutable-key set. -/
def genPermsLoop : List (String × Val) → String → List Val → Dict → Finset String →
    List Dict × Finset String
  | _, _, [], _, pk => ([], pk)
  | rest, k, v :: more, config, pk =>
      let r1 := genPerms rest (dictSet config k v) pk
      let r2 := genPermsLoop rest k more config r1.2
      (r1.1 ++ r2.1, r2.2)
termination_by rest _ vs _ _ => (rest.length, vs.length)

end

/-- `ConfigReader._gen_run_configs(data)`: enumerate the document's entries in
their own order and expand them starting from the empty configuration.  The
enumeration dictionary `{index: {key, value}}` is the document's (key, value)
list itself. -/
def genRunConfigsPure (data : List (String × Val)) (pk : Finset String) :
    List Dict × Finset String :=
  genPerms data [] pk

/-- The inner loop of `ConfigReader.remove_completed_runs`: compare one queued
configuration against the completed-run row `runDict`.  Iterates the
configuration's items in order, skipping the "meta" key; a missing row key is
a Python `KeyError` (`Except.error`), a differing value breaks out with no
match, and a fully traversed configuration is a match. -/
def matchConfig (runDict : Dict) : Dict → Except Unit Bool
  | [] => .ok true
  | (k, v) :: rest =>
      if k = "meta" then matchConfig runDict rest
      else
        match lookup runDict k with
        | none => .error ()
        | some w => if w ≠ v then .ok false else matchConfig runDict rest

/-- The outer loop of `ConfigReader.remove_completed_runs`: scan the queue in
order for the first configuration matching the row, propagating a `KeyError`
raised by any comparison reached before a match. -/
def findMatch (runDict : Dict) : List Dict → Except Unit (Option Dict)
  | [] => .ok none
  | c :: rest =>
      match matchConfig runDict c with
      | .error e => .error e
      | .ok true => .ok (some c)
      | .ok false => findMatch runDict rest

/-- Python `list.remove(c)`: delete the first element equal to `c`.  (The
source only calls it with an element of the list, so the not-found
`ValueError` case cannot occur; on an absent element this model returns the
list unchanged.) -/
def listRemove (c : Dict) : List Dict → List Dict
  | [] => []
  | x :: rest => if x = c then rest else x :: listRemove c rest

/-- `ConfigReader.remove_completed_runs(run_dict)` acting on the generated
queue: find the first matching configuration, remove it (`list.remove`
followed by `break`), or leave the queue unchanged when nothing matches.  All
configurations the program ever queues share the document's key order, so
Python dict equality coincides with equality of the association lists and the
first element equal to the first match is the first match itself. -/
def removeCompletedRuns (runDict : Dict) (queue : List Dict) :
    Except Unit (List Dict) :=
  match findMatch runDict queue with
  | .error e => .error e
  | .ok none => .ok queue
  | .ok (some c) => .ok (listRemove c queue)

/-- The innermost loop of `ConfigReader._exclude_configs`: does one exclusion
rule match a run configuration?  `matched` starts `True` (so an empty rule
matches everything); each rule item is compared against `run_config[key]`,
raising `KeyError` when the key is absent from the configuration and breaking
out with `False` on a differing value. -/
def ruleMatches (runConfig : Dict) : Dict → Except Unit Bool
  | [] => .ok true
  | (k, v) :: rest =>
      match lookup runConfig k with
      | none => .error ()
      | some w => if w ≠ v then .ok false else ruleMatches runConfig rest

/-- The middle loop of `ConfigReader._exclude_configs`: a configuration is
excluded when some rule matches it (first-match short-circuit). -/
def matchesAnyRule (runConfig : Dict) : List Dict → Except Unit Bool
  | [] => .ok false
  | r :: rs =>
      match ruleMatches runConfig r with
      | .error e => .error e
      | .ok true => .ok true
      | .ok false => matchesAnyRule runConfig rs

/-- The `to_remove` accumulation of `ConfigReader._exclude_configs`: the queued
configurations, in order, that match at least one rule. -/
def computeMatched (rules : List Dict) : List Dict → Except Unit (List Dict)
  | [] => .ok []
  | c :: rest =>
      match matchesAnyRule c rules with
      | .error e => .error e
      | .ok true => (computeMatched rules rest).map (c :: ·)
      | .ok false => computeMatched rules rest

/-- The removal loop of `ConfigReader._exclude_configs`: `list.remove` each
collected configuration from the queue in order. -/
def removeEach (toRemove : List Dict) (queue : List Dict) : List Dict :=
  toRemove.foldl (fun acc c => listRemove c acc) queue

/-- `ConfigReader._exclude_configs()` acting on the generated queue with the
configured `meta["exclude_configs"]` rules: guarded by
`len(exclude_configs) > 0 and len(run_configs) > 1`, collect every matching
configuration and remove each from the queue.  (The source's extra
`len(to_remove) > 0` check changes nothing: removing an empty batch is the
identity.) -/
def excludeConfigs (rules : List Dict) (queue : List Dict) :
    Except Unit (List Dict) :=
  if 0 < rules.length ∧ 1 < queue.length then
    match computeMatched rules queue with
    | .error e => .error e
    | .ok toRemove => .ok (removeEach toRemove queue)
  else .ok queue

/-- The mutable state of a `ConfigReader` relevant to queue generation:
`self.data`, the `meta["exclude_configs"]` rule list the loader supplied,
`self.run_configs`, `self.permutable_keys` and the `self._generated` memo
flag. -/
structure ConfigReaderState where
  data : List (String × Val)
  excludeRules : List Dict
  run_configs : List Dict
  permutable_keys : Finset String
  generated : Bool
deriving DecidableEq

/-- `ConfigReader.gen_run_configs()`: when not yet generated, expand the
document, apply the exclusion rules, shuffle (`random.shuffle`, supplied here
as an arbitrary reordering function) and set the memo flag; afterwards return
the stored queue and permutable-key set.  A `KeyError` raised by the exclusion
pass propagates to the caller. -/
def genRunConfigs (shuffle : List Dict → List Dict) (s : ConfigReaderState) :
    Except Unit (ConfigReaderState × (List Dict × Finset String)) :=
  if s.generated then .ok (s, (s.run_configs, s.permutable_keys))
  else
    let r := genRunConfigsPure s.data s.permutable_keys
    match excludeConfigs s.excludeRules r.1 with
    | .error e => .error e
    | .ok q =>
        let q1 := shuffle q
        .ok ({ s with run_configs := q1, permutable_keys := r.2, generated := true },
             (q1, r.2))

/-- The state of a `ConfigWatcher` relevant to the reload loop: the last
observed modification time `self._mtime`, the published `self.config_reader`,
and `self.flagged`. -/
structure WatcherState where
  mtime : Nat
  reader : ConfigReaderState
  flagged : Bool
deriving DecidableEq

/-- `ConfigWatcher.get_config_reader()`: hand the caller the currently
published reader (the lock only guards the read of the attribute). -/
def getConfigReader (w : WatcherState) : ConfigReaderState := w.reader

/-- One iteration of the `ConfigWatcher.run` polling loop, after the timed
wait.  `newMtime` is the file's observed modification time; `load` is the
outcome of `ConfigReader(self.config_path)` (an `Except.error` when the
constructor raises on a malformed document or missing required key);
`reconcile` is the outcome of `self._remove_completed_runs()` on the freshly
constructed reader.  The loop body has no exception handler, so a raised
error escapes `run` — modelled by the `Except.error` result, which carries the
watcher state left behind at the moment the exception propagates (note that
`self._mtime` has already been advanced, and a reconciliation failure strikes
after `self.config_reader` was already reassigned). -/
def watcherStep (s : WatcherState) (newMtime : Nat)
    (load : Except Unit ConfigReaderState)
    (reconcile : ConfigReaderState → Except Unit ConfigReaderState) :
    Except (Unit × WatcherState) WatcherState :=
  if s.mtime ≠ newMtime then
    match load with
    | .error e => .error (e, { s with mtime := newMtime })
    | .ok r =>
        match reconcile r with
        | .error e => .error (e, { s with mtime := newMtime, reader := r })
        | .ok r1 => .ok { mtime := newMtime, reader := r1, flagged := true }
  else .ok s

/-- Spec-side definition, for comparison with the code: "the permutable-key
set ... contains exactly the document keys whose value is an array of
length ≥ 1". -/
def specPermutableKeys : List (String × Val) → Finset String
  | [] => ∅
  | (k, Val.list (_ :: _)) :: rest => insert k (specPermutableKeys rest)
  | _ :: rest => specPermutableKeys rest

/-- Spec-side definition, for comparison with the code: "a RunConfig matches a
rule iff every key in the rule is present in the RunConfig with an equal
value". -/
def specRuleMatch (runConfig : Dict) (rule : Dict) : Bool :=
  rule.all fun kv => decide (lookup runConfig kv.1 = some kv.2)

/-- Spec-side definition: a configuration is excluded iff it matches at least
one rule, regardless of rule order. -/
def specMatchedAny (rules : List Dict) (runConfig : Dict) : Bool :=
  rules.any (specRuleMatch runConfig)

/-- The candidate values a document entry contributes: the elements of an
array value, or the value itself as the single candidate (the
`values = [value]` branch). -/
def branches : Val → List Val
  | Val.list vs => vs.map Val.scalar
  | v => [v]

/-- Structural restatement of the configuration part of the expansion,
proven equal to `(genPerms ed c pk).1` in `genPerms_fst`. -/
def expand : List (String × Val) → Dict → List Dict
  | [], c => [c]
  | (k, v) :: rest, c => (branches v).flatMap fun val => expand rest (dictSet c k val)

/-- Assign a segment of document entries onto a configuration in order. -/
def assignAll (seg : List (String × Val)) (c : Dict) : Dict :=
  seg.foldl (fun acc kv => dictSet acc kv.1 kv.2) c

theorem genPermsLoop_fst (rest : List (String × Val)) (k : String)
    (hrec : ∀ c pk, (genPerms rest c pk).1 = expand rest c) :
    ∀ (vs : List Val) (c : Dict) (pk : Finset String),
      (genPermsLoop rest k vs c pk).1 = vs.flatMap fun v => expand rest (dictSet c k v) := by
  intro vs
  induction vs with
  | nil => intro c pk; rw [genPermsLoop.eq_1]; rfl
  | cons v more ih =>
      intro c pk
      rw [genPermsLoop.eq_2, List.flatMap_cons, hrec, ih]

theorem genPerms_fst : ∀ (ed : List (String × Val)) (c : Dict) (pk : Finset String),
    (genPerms ed c pk).1 = expand ed c := by
  intro ed
  induction ed with
  | nil => intro c pk; simp [genPerms, expand]
  | cons p rest ih =>
      obtain ⟨k, v⟩ := p
      intro c pk
      match v with
      | Val.scalar s =>
          simp only [genPerms]
          rw [genPermsLoop_fst rest k ih]
          simp [expand, branches]
      | Val.dict d =>
          simp only [genPerms]
          rw [genPermsLoop_fst rest k ih]
          simp [expand, branches]
      | Val.list vs =>
          simp only [genPerms]
          rw [genPermsLoop_fst rest k ih]
          simp [expand, branches]

theorem genPermsLoop_snd (rest : List (String × Val)) (k : String) (S : Finset String)
    (hrec : ∀ c pk, (genPerms rest c pk).2 = pk ∪ S) :
    ∀ (vs : List Val) (c : Dict) (pk : Finset String), vs ≠ [] →
      (genPermsLoop rest k vs c pk).2 = pk ∪ S := by
  intro vs
  induction vs with
  | nil => intro c pk h; exact absurd rfl h
  | cons v more ih =>
      intro c pk _
      rw [genPermsLoop.eq_2, hrec]
      match more with
      | [] => rw [genPermsLoop.eq_1]
      | m :: ms =>
          rw [ih c _ (by simp), Finset.union_assoc, Finset.union_self]

theorem genPerms_snd : ∀ (ed : List (String × Val)),
    (∀ p ∈ ed, p.2 ≠ Val.list []) →
    ∀ (c : Dict) (pk : Finset String),
      (genPerms ed c pk).2 = pk ∪ specPermutableKeys ed := by
  intro ed
  induction ed with
  | nil => intro _ c pk; simp [genPerms, specPermutableKeys]
  | cons p rest ih =>
      obtain ⟨k, v⟩ := p
      intro h c pk
      have hrest : ∀ p ∈ rest, p.2 ≠ Val.list [] :=
        fun p hp => h p (List.mem_cons_of_mem _ hp)
      have hrec := ih hrest
      match v with
      | Val.scalar s =>
          simp only [genPerms]
          rw [genPermsLoop_snd rest k _ hrec _ c pk (by simp)]
          simp [specPermutableKeys]
      | Val.dict d =>
          simp only [genPerms]
          rw [genPermsLoop_snd rest k _ hrec _ c pk (by simp)]
          simp [specPermutableKeys]
      | Val.list vs =>
          have hvs : vs ≠ [] := by
            intro hh
            exact h (k, Val.list vs) (List.mem_cons_self _ _) (by rw [hh])
          match vs with
          | s :: ss =>
              simp only [genPerms]
              rw [genPermsLoop_snd rest k _ hrec _ c _ (by simp)]
              simp only [specPermutableKeys]
              rw [Finset.insert_union, Finset.union_insert]

theorem dictSet_of_not_mem (k : String) (v : Val) :
    ∀ (c : Dict), k ∉ c.map Prod.fst → dictSet c k v = c ++ [(k, v)] := by
  intro c
  induction c with
  | nil => intro _; rfl
  | cons p rest ih =>
      obtain ⟨k1, v1⟩ := p
      intro h
      simp only [List.map_cons, List.mem_cons] at h
      push_neg at h
      simp only [dictSet]
      rw [if_neg (fun hh => h.1 hh.symm)]
      simp only [List.cons_append, List.cons.injEq, true_and]
      exact ih h.2

theorem assignAll_cons (k : String) (v : Val) (seg : List (String × Val)) (c : Dict) :
    assignAll ((k, v) :: seg) c = assignAll seg (dictSet c k v) := rfl

theorem assignAll_eq_append :
    ∀ (seg : List (String × Val)) (c : Dict), (seg.map Prod.fst).Nodup →
      (∀ k ∈ seg.map Prod.fst, k ∉ c.map Prod.fst) → assignAll seg c = c ++ seg := by
  intro seg
  induction seg with
  | nil => intro c _ _; simp [assignAll]
  | cons p rest ih =>
      obtain ⟨k, v⟩ := p
      intro c hnd hdisj
      simp only [List.map_cons, List.nodup_cons] at hnd
      rw [assignAll_cons, dictSet_of_not_mem k v c
        (hdisj k (by simp))]
      rw [ih (c ++ [(k, v)]) hnd.2 ?_]
      · simp
      · intro k1 hk1
        simp only [List.map_append, List.map_cons, List.map_nil, List.mem_append,
          List.mem_singleton]
        push_neg
        refine ⟨hdisj k1 (by simp [hk1]), ?_⟩
        intro hh
        exact hnd.1 (hh ▸ hk1)

theorem branches_of_not_list (v : Val) (h : ∀ ws, v ≠ Val.list ws) :
    branches v = [v] := by
  match v with
  | Val.scalar s => rfl
  | Val.dict d => rfl
  | Val.list ws => exact absurd rfl (h ws)

theorem expand_scalar_seg :
    ∀ (seg : List (String × Val)), (∀ p ∈ seg, ∀ ws, p.2 ≠ Val.list ws) →
      ∀ (rest : List (String × Val)) (c : Dict),
        expand (seg ++ rest) c = expand rest (assignAll seg c) := by
  intro seg
  induction seg with
  | nil => intro _ rest c; simp [assignAll]
  | cons p seg1 ih =>
      obtain ⟨k, v⟩ := p
      intro h rest c
      have hv : ∀ ws, v ≠ Val.list ws := h (k, v) (List.mem_cons_self _ _)
      simp only [List.cons_append, expand, branches_of_not_list v hv,
        List.flatMap_cons, List.flatMap_nil, List.append_nil]
      rw [assignAll_cons]
      exact ih (fun p hp => h p (List.mem_cons_of_mem _ hp)) rest (dictSet c k v)

theorem flatMap_nil_of_forall {α β : Type} (l : List α) (f : α → List β)
    (h : ∀ x ∈ l, f x = []) : l.flatMap f = [] := by
  induction l with
  | nil => rfl
  | cons x rest ih =>
      rw [List.flatMap_cons, h x (List.mem_cons_self _ _),
        ih (fun y hy => h y (List.mem_cons_of_mem _ hy))]
      rfl

theorem expand_of_empty_array :
    ∀ (ed : List (String × Val)), (∃ p ∈ ed, p.2 = Val.list []) →
      ∀ (c : Dict), expand ed c = [] := by
  intro ed
  induction ed with
  | nil => intro h _; obtain ⟨p, hp, _⟩ := h; exact absurd hp (List.not_mem_nil p)
  | cons q rest ih =>
      obtain ⟨k, v⟩ := q
      intro h c
      obtain ⟨p, hp, hp2⟩ := h
      rcases List.mem_cons.mp hp with hhead | htail
      · subst hhead
        simp only at hp2
        subst hp2
        simp [expand, branches]
      · exact flatMap_nil_of_forall _ _ fun val _ =>
          ih ⟨p, htail, hp2⟩ (dictSet c k val)

theorem specPermutableKeys_nonlist_seg :
    ∀ (seg : List (String × Val)), (∀ p ∈ seg, ∀ ws, p.2 ≠ Val.list ws) →
      ∀ (rest : List (String × Val)),
        specPermutableKeys (seg ++ rest) = specPermutableKeys rest := by
  intro seg
  induction seg with
  | nil => intro _ rest; rfl
  | cons p seg1 ih =>
      obtain ⟨k, v⟩ := p
      intro h rest
      have hv : ∀ ws, v ≠ Val.list ws := h (k, v) (List.mem_cons_self _ _)
      have htail := fun p hp => h p (List.mem_cons_of_mem _ hp)
      match v with
      | Val.scalar s => simp only [List.cons_append, specPermutableKeys]; exact ih htail rest
      | Val.dict d => simp only [List.cons_append, specPermutableKeys]; exact ih htail rest
      | Val.list ws => exact absurd rfl (hv ws)

theorem findMatch_ok_some :
    ∀ (q : List Dict) (row c : Dict), findMatch row q = .ok (some c) →
      c ∈ q ∧ matchConfig row c = .ok true := by
  intro q
  induction q with
  | nil => intro row c h; exact absurd h (by simp [findMatch])
  | cons x rest ih =>
      intro row c h
      simp only [findMatch] at h
      match hm : matchConfig row x with
      | .error e => rw [hm] at h; exact absurd h (by simp)
      | .ok true =>
          rw [hm] at h
          simp only [Except.ok.injEq, Option.some.injEq] at h
          subst h
          exact ⟨List.mem_cons_self _ _, hm⟩
      | .ok false =>
          rw [hm] at h
          obtain ⟨hmem, hmc⟩ := ih row c h
          exact ⟨List.mem_cons_of_mem _ hmem, hmc⟩

theorem listRemove_length :
    ∀ (q : List Dict) (c : Dict), c ∈ q → (listRemove c q).length + 1 = q.length := by
  intro q
  induction q with
  | nil => intro c h; exact absurd h (List.not_mem_nil c)
  | cons x rest ih =>
      intro c h
      by_cases hx : x = c
      · simp [listRemove, hx]
      · rcases List.mem_cons.mp h with h1 | h2
        · exact absurd h1.symm hx
        · simp only [listRemove, if_neg hx, List.length_cons]
          rw [ih c h2]

theorem matchConfig_isOk_of_covered :
    ∀ (c : Dict) (row : Dict),
      (∀ kv ∈ c, kv.1 ≠ "meta" → (lookup row kv.1).isSome) →
      ∃ b, matchConfig row c = .ok b := by
  intro c
  induction c with
  | nil => intro row _; exact ⟨true, rfl⟩
  | cons kv rest ih =>
      obtain ⟨k, v⟩ := kv
      intro row h
      have htail := fun kv hkv => h kv (List.mem_cons_of_mem _ hkv)
      by_cases hk : k = "meta"
      · simp only [matchConfig, if_pos hk]
        exact ih row htail
      · have hsome := h (k, v) (List.mem_cons_self _ _) hk
        simp only [matchConfig, if_neg hk]
        match hl : lookup row k with
        | none => rw [hl] at hsome; exact absurd hsome (by simp)
        | some w =>
            show ∃ b, (if w ≠ v then Except.ok false else matchConfig row rest) = .ok b
            by_cases hw : w ≠ v
            · exact ⟨false, by rw [if_pos hw]⟩
            · rw [if_neg hw]
              exact ih row htail

theorem matchConfig_congr :
    ∀ (c : Dict) (row row1 : Dict),
      (∀ kv ∈ c, lookup row kv.1 = lookup row1 kv.1) →
      matchConfig row c = matchConfig row1 c := by
  intro c
  induction c with
  | nil => intro _ _ _; rfl
  | cons kv rest ih =>
      obtain ⟨k, v⟩ := kv
      intro row row1 h
      have htail := fun kv hkv => h kv (List.mem_cons_of_mem _ hkv)
      have hhead := h (k, v) (List.mem_cons_self _ _)
      by_cases hk : k = "meta"
      · simp only [matchConfig, if_pos hk]
        exact ih row row1 htail
      · simp only [matchConfig, if_neg hk]
        rw [← hhead]
        match lookup row k with
        | none => rfl
        | some w =>
            show (if w ≠ v then Except.ok false else matchConfig row rest) =
              if w ≠ v then Except.ok false else matchConfig row1 rest
            by_cases hw : w ≠ v
            · rw [if_pos hw, if_pos hw]
            · rw [if_neg hw, if_neg hw]
              exact ih row row1 htail

theorem findMatch_isOk_of_covered :
    ∀ (q : List Dict) (row : Dict),
      (∀ c ∈ q, ∀ kv ∈ c, kv.1 ≠ "meta" → (lookup row kv.1).isSome) →
      ∃ r, findMatch row q = .ok r := by
  intro q
  induction q with
  | nil => intro row _; exact ⟨none, rfl⟩
  | cons x rest ih =>
      intro row h
      obtain ⟨b, hb⟩ := matchConfig_isOk_of_covered x row (h x (List.mem_cons_self _ _))
      have htail := ih row (fun c hc => h c (List.mem_cons_of_mem _ hc))
      simp only [findMatch, hb]
      match b with
      | true => exact ⟨some x, rfl⟩
      | false => exact htail

theorem findMatch_congr :
    ∀ (q : List Dict) (row row1 : Dict),
      (∀ c ∈ q, ∀ kv ∈ c, lookup row kv.1 = lookup row1 kv.1) →
      findMatch row q = findMatch row1 q := by
  intro q
  induction q with
  | nil => intro _ _ _; rfl
  | cons x rest ih =>
      intro row row1 h
      simp only [findMatch]
      rw [← matchConfig_congr x row row1 (h x (List.mem_cons_self _ _))]
      match matchConfig row x with
      | .error e => rfl
      | .ok true => rfl
      | .ok false => exact ih row row1 (fun c hc => h c (List.mem_cons_of_mem _ hc))

theorem ruleMatches_of_covered :
    ∀ (r : Dict) (c : Dict), (∀ kv ∈ r, (lookup c kv.1).isSome) →
      ruleMatches c r = .ok (specRuleMatch c r) := by
  intro r
  induction r with
  | nil => intro c _; rfl
  | cons kv rest ih =>
      obtain ⟨k, v⟩ := kv
      intro c h
      have hsome := h (k, v) (List.mem_cons_self _ _)
      have htail := fun kv hkv => h kv (List.mem_cons_of_mem _ hkv)
      simp only [ruleMatches, specRuleMatch, List.all_cons]
      match hl : lookup c k with
      | none => rw [hl] at hsome; exact absurd hsome (by simp)
      | some w =>
          show (if w ≠ v then Except.ok false else ruleMatches c rest) = _
          by_cases hw : w ≠ v
          · rw [if_pos hw]
            have hd : decide (some w = some v) = false := by
              simp only [decide_eq_false_iff_not, Option.some.injEq]
              exact hw
            rw [hd, Bool.false_and]
          · rw [if_neg hw]
            push_neg at hw
            subst hw
            rw [ih c htail]
            simp [specRuleMatch]

theorem matchesAnyRule_of_covered :
    ∀ (rules : List Dict) (c : Dict),
      (∀ r ∈ rules, ∀ kv ∈ r, (lookup c kv.1).isSome) →
      matchesAnyRule c rules = .ok (specMatchedAny rules c) := by
  intro rules
  induction rules with
  | nil => intro c _; rfl
  | cons r rs ih =>
      intro c h
      have hr := ruleMatches_of_covered r c (h r (List.mem_cons_self _ _))
      have htail := fun r hr => h r (List.mem_cons_of_mem _ hr)
      simp only [matchesAnyRule, hr, specMatchedAny, List.any_cons]
      match hb : specRuleMatch c r with
      | true => rfl
      | false =>
          rw [ih c htail]
          simp [specMatchedAny]

theorem computeMatched_of_covered :
    ∀ (q : List Dict) (rules : List Dict),
      (∀ c ∈ q, ∀ r ∈ rules, ∀ kv ∈ r, (lookup c kv.1).isSome) →
      computeMatched rules q = .ok (q.filter (specMatchedAny rules)) := by
  intro q
  induction q with
  | nil => intro rules _; rfl
  | cons c rest ih =>
      intro rules h
      have hc := matchesAnyRule_of_covered rules c
        (fun r hr kv hkv => h c (List.mem_cons_self _ _) r hr kv hkv)
      have htail := ih rules (fun c hc => h c (List.mem_cons_of_mem _ hc))
      simp only [computeMatched, hc, List.filter_cons]
      match hb : specMatchedAny rules c with
      | true => rw [htail]; rfl
      | false => rw [htail]; simp

theorem listRemove_cons_ne (x c : Dict) (q : List Dict) (h : c ≠ x) :
    listRemove x (c :: q) = c :: listRemove x q := by
  simp only [listRemove, if_neg h]

theorem removeEach_nil (q : List Dict) : removeEach [] q = q := rfl

theorem removeEach_cons (x : Dict) (l : List Dict) (q : List Dict) :
    removeEach (x :: l) q = removeEach l (listRemove x q) := rfl

theorem removeEach_cons_ne :
    ∀ (l : List Dict) (c : Dict) (q : List Dict), (∀ x ∈ l, x ≠ c) →
      removeEach l (c :: q) = c :: removeEach l q := by
  intro l
  induction l with
  | nil => intro c q _; rfl
  | cons x l1 ih =>
      intro c q h
      rw [removeEach_cons, removeEach_cons,
        listRemove_cons_ne x c q (fun hh => h x (List.mem_cons_self _ _) hh.symm)]
      exact ih c (listRemove x q) (fun y hy => h y (List.mem_cons_of_mem _ hy))

theorem removeEach_filter (p : Dict → Bool) :
    ∀ (q : List Dict), removeEach (q.filter p) q = q.filter (fun c => !(p c)) := by
  intro q
  induction q with
  | nil => rfl
  | cons c rest ih =>
      by_cases hp : p c
      · rw [List.filter_cons_of_pos hp, removeEach_cons]
        have hrm : listRemove c (c :: rest) = rest := by simp [listRemove]
        rw [hrm, ih, List.filter_cons_of_neg (by simp [hp])]
      · rw [List.filter_cons_of_neg (by simp [hp])]
        rw [removeEach_cons_ne (rest.filter p) c rest ?_]
        · rw [ih, List.filter_cons_of_pos (by simp [hp])]
        · intro x hx hxc
          have hpx := List.of_mem_filter hx
          rw [hxc] at hpx
          exact hp hpx

theorem expand_scalar_all (seg : List (String × Val))
    (h : ∀ p ∈ seg, ∀ ws, p.2 ≠ Val.list ws) (c : Dict) :
    expand seg c = [assignAll seg c] := by
  have hh := expand_scalar_seg seg h [] c
  rw [List.append_nil] at hh
  rw [hh]
  rfl

theorem flatMap_singleton_map {α β : Type} (l : List α) (g : α → β) :
    (l.flatMap fun x => [g x]) = l.map g := by
  induction l with
  | nil => rfl
  | cons x rest ih =>
      rw [List.flatMap_cons, List.map_cons, ih]
      rfl

theorem any_perm_congr {α : Type} {l1 l2 : List α} (h : l1.Perm l2) (f : α → Bool) :
    l1.any f = l2.any f := by
  by_cases h1 : l1.any f = true
  · rw [h1]
    obtain ⟨x, hx, hfx⟩ := List.any_eq_true.mp h1
    exact (List.any_eq_true.mpr ⟨x, h.mem_iff.mp hx, hfx⟩).symm
  · have h2 : l1.any f = false := by
      cases hq : l1.any f
      · rfl
      · exact absurd hq h1
    rw [h2]
    cases hq : l2.any f
    · rfl
    · obtain ⟨x, hx, hfx⟩ := List.any_eq_true.mp hq
      exact absurd (List.any_eq_true.mpr ⟨x, h.mem_iff.mpr hx, hfx⟩) h1

/-- C3 counterexample: in the document `{"a": [], "b": [1]}` the code records
the empty-array key "a" as permutable (`permutable_keys.add` runs before the
branch loop, with no length check) and never reaches "b" (the empty branch
list cuts the recursion), so the produced permutable-key set is exactly
opposite to the claimed "keys whose value is an array of length ≥ 1". -/
theorem C3_counterexample :
    (genPerms [("a", Val.list []), ("b", Val.list [Scalar.int 1])] [] ∅).2 = {"a"} ∧
    specPermutableKeys [("a", Val.list []), ("b", Val.list [Scalar.int 1])] = {"b"} ∧
    ({"a"} : Finset String) ≠ {"b"} := by
  refine ⟨?_, rfl, by decide⟩
  simp [genPerms, genPermsLoop, dictSet]

/-- C3, amended: for documents with no empty-array value, the permutable-key
set produced by expansion is exactly the set of keys whose value is an array
(all of length ≥ 1 by the hypothesis), independently of key order; a key with
an empty-array value, however, is itself recorded, and any array-valued key
after the first empty-array key is not recorded. -/
theorem C3_permutable_keys (doc : List (String × Val))
    (h : ∀ p ∈ doc, p.2 ≠ Val.list []) :
    (genPerms doc [] ∅).2 = specPermutableKeys doc := by
  rw [genPerms_snd doc h [] ∅, Finset.empty_union]

/-- Witness for C3_permutable_keys at the document `{"a": [1], "b": 2}`. -/
theorem C3_permutable_keys_witness :
    (genPerms [("a", Val.list [Scalar.int 1]), ("b", Val.scalar (Scalar.int 2))] [] ∅).2 =
      specPermutableKeys
        [("a", Val.list [Scalar.int 1]), ("b", Val.scalar (Scalar.int 2))] :=
  C3_permutable_keys _ (by decide)

/-- C5: the exclusion pass is a no-op on a queue of length exactly 1
regardless of the rules, and a no-op on any queue when the rule list is empty
(both short-circuited by the `len(exclude_configs) > 0 and
len(self.run_configs) > 1` guard). -/
theorem C5_exclusion_noop :
    (∀ (rules : List Dict) (q : List Dict), q.length = 1 →
      excludeConfigs rules q = .ok q) ∧
    (∀ (q : List Dict), excludeConfigs [] q = .ok q) := by
  constructor
  · intro rules q h
    simp only [excludeConfigs]
    rw [if_neg]
    intro hc
    rw [h] at hc
    exact absurd hc.2 (by norm_num)
  · intro q
    simp only [excludeConfigs]
    rw [if_neg]
    intro hc
    exact absurd hc.1 (by simp)

/-- Witness for C5_exclusion_noop on a length-1 queue with a rule that would
match its sole entry. -/
theorem C5_exclusion_noop_witness :
    excludeConfigs [[("a", Val.scalar (Scalar.int 1))]]
      [[("a", Val.scalar (Scalar.int 1))]] =
      .ok [[("a", Val.scalar (Scalar.int 1))]] :=
  C5_exclusion_noop.1 _ _ rfl

/-- C6: a document containing any empty-array value expands to zero run
configurations — the empty branch list stops the recursion on every path, the
multiplicative zero of the cartesian product. -/
theorem C6_empty_array_zero_configs (doc : List (String × Val))
    (h : ∃ p ∈ doc, p.2 = Val.list []) :
    (genPerms doc [] ∅).1 = [] := by
  rw [genPerms_fst]
  exact expand_of_empty_array doc h []

/-- Witness for C6_empty_array_zero_configs at `{"a": [], "b": 1}`. -/
theorem C6_empty_array_zero_configs_witness :
    (genPerms [("a", Val.list []), ("b", Val.scalar (Scalar.int 1))] [] ∅).1 = [] :=
  C6_empty_array_zero_configs _ ⟨("a", Val.list []), by simp, rfl⟩

/-- C10: a concrete document (`{"a": [1, 2]}`) and exclusion-rule list
(rules matching each of the two expanded entries) for which the generated
queue has length 2 and the exclusion pass removes every entry, returning an
empty queue: the at-least-one-run guarantee only holds for single-entry
queues. -/
theorem C10_queue_fully_excluded :
    (genPerms [("a", Val.list [Scalar.int 1, Scalar.int 2])] [] ∅).1 =
      [[("a", Val.scalar (Scalar.int 1))], [("a", Val.scalar (Scalar.int 2))]] ∧
    ([[("a", Val.scalar (Scalar.int 1))], [("a", Val.scalar (Scalar.int 2))]] :
      List Dict).length = 2 ∧
    excludeConfigs
      [[("a", Val.scalar (Scalar.int 1))], [("a", Val.scalar (Scalar.int 2))]]
      [[("a", Val.scalar (Scalar.int 1))], [("a", Val.scalar (Scalar.int 2))]] =
      .ok [] := by
  refine ⟨?_, rfl, rfl⟩
  simp [genPerms, genPermsLoop, dictSet]

/-- C2 counterexample: the document `{"a": [8, 8]}` generates a queue with two
equal entries, and calling remove_completed_runs twice with the same
completed-run row `{"a": 8}` removes both of them — two matching RunConfigs in
total, not at most one. -/
theorem C2_counterexample :
    (genPerms [("a", Val.list [Scalar.int 8, Scalar.int 8])] [] ∅).1 =
      [[("a", Val.scalar (Scalar.int 8))], [("a", Val.scalar (Scalar.int 8))]] ∧
    removeCompletedRuns [("a", Val.scalar (Scalar.int 8))]
      [[("a", Val.scalar (Scalar.int 8))], [("a", Val.scalar (Scalar.int 8))]] =
      .ok [[("a", Val.scalar (Scalar.int 8))]] ∧
    removeCompletedRuns [("a", Val.scalar (Scalar.int 8))]
      [[("a", Val.scalar (Scalar.int 8))]] = .ok [] := by
  refine ⟨?_, rfl, rfl⟩
  simp [genPerms, genPermsLoop, dictSet]

/-- C2, amended: each single remove_completed_runs call removes at most one
RunConfig — the result is either the unchanged queue with no match found, or
the queue with exactly one matching entry removed (so two calls with the same
row remove two entries only when the queue holds duplicate matching entries);
a call that completes with no match leaves the queue unchanged and raises no
error. -/
theorem C2_remove_at_most_one_per_call (row : Dict) (q q1 : List Dict)
    (h : removeCompletedRuns row q = .ok q1) :
    (q1 = q ∧ findMatch row q = .ok none) ∨
    (∃ c, c ∈ q ∧ matchConfig row c = .ok true ∧ q1 = listRemove c q ∧
      q1.length + 1 = q.length) := by
  unfold removeCompletedRuns at h
  match hf : findMatch row q with
  | .error e => rw [hf] at h; exact absurd h (by simp)
  | .ok none =>
      rw [hf] at h
      simp only [Except.ok.injEq] at h
      exact Or.inl ⟨h.symm, rfl⟩
  | .ok (some c) =>
      rw [hf] at h
      simp only [Except.ok.injEq] at h
      obtain ⟨hmem, hmc⟩ := findMatch_ok_some q row c hf
      refine Or.inr ⟨c, hmem, hmc, h.symm, ?_⟩
      rw [h.symm] at *
      exact listRemove_length q c hmem

/-- Witness for C2_remove_at_most_one_per_call: removing the row `{"a": 8}`
from the queue `[{"a": 8}]`. -/
theorem C2_remove_at_most_one_per_call_witness :
    (([] : List Dict) = [[("a", Val.scalar (Scalar.int 8))]] ∧
      findMatch [("a", Val.scalar (Scalar.int 8))]
        [[("a", Val.scalar (Scalar.int 8))]] = .ok none) ∨
    (∃ c, c ∈ [[("a", Val.scalar (Scalar.int 8))]] ∧
      matchConfig [("a", Val.scalar (Scalar.int 8))] c = .ok true ∧
      ([] : List Dict) = listRemove c [[("a", Val.scalar (Scalar.int 8))]] ∧
      ([] : List Dict).length + 1 =
        ([[("a", Val.scalar (Scalar.int 8))]] : List Dict).length) :=
  C2_remove_at_most_one_per_call [("a", Val.scalar (Scalar.int 8))]
    [[("a", Val.scalar (Scalar.int 8))]] [] rfl

/-- C9 counterexample: the row `{"a": 0}` lacks the key "b" which is present
in the queued (and compared) configuration `{"a": 1, "b": 2}`, yet no KeyError
is raised: the comparison short-circuits at the mismatching key "a" before
ever looking "b" up, and the call returns with the queue unchanged. -/
theorem C9_counterexample :
    removeCompletedRuns [("a", Val.scalar (Scalar.int 0))]
      [[("a", Val.scalar (Scalar.int 1)), ("b", Val.scalar (Scalar.int 2))]] =
      .ok [[("a", Val.scalar (Scalar.int 1)), ("b", Val.scalar (Scalar.int 2))]] ∧
    lookup [("a", Val.scalar (Scalar.int 0))] "b" = none :=
  ⟨rfl, rfl⟩

/-- C9, amended: remove_completed_runs raises a KeyError only when a compared
configuration reaches a non-"meta" key missing from the row before hitting a
mismatch; under the precondition that the row maps every non-"meta" key of
every queued RunConfig the call never raises, and any two rows that agree on
all the queued configurations' keys (in particular, a row extended with extra
keys occurring in no RunConfig) produce identical outcomes. -/
theorem C9_keyerror_conditions (row row1 : Dict) (q : List Dict)
    (hcov : ∀ c ∈ q, ∀ kv ∈ c, kv.1 ≠ "meta" → (lookup row kv.1).isSome)
    (hagree : ∀ c ∈ q, ∀ kv ∈ c, lookup row kv.1 = lookup row1 kv.1) :
    (removeCompletedRuns row q).isOk = true ∧
    removeCompletedRuns row1 q = removeCompletedRuns row q := by
  constructor
  · obtain ⟨r, hr⟩ := findMatch_isOk_of_covered q row hcov
    unfold removeCompletedRuns
    rw [hr]
    match r with
    | none => rfl
    | some c => rfl
  · have hfm := findMatch_congr q row row1 hagree
    unfold removeCompletedRuns
    rw [hfm]

/-- Witness for C9_keyerror_conditions: the queue `[{"a": 8}]`, a covering
row `{"a": 8}`, and the same row extended with an extra key. -/
theorem C9_keyerror_conditions_witness :
    (removeCompletedRuns [("a", Val.scalar (Scalar.int 8))]
      [[("a", Val.scalar (Scalar.int 8))]]).isOk = true ∧
    removeCompletedRuns
      [("a", Val.scalar (Scalar.int 8)), ("x", Val.scalar (Scalar.int 9))]
      [[("a", Val.scalar (Scalar.int 8))]] =
      removeCompletedRuns [("a", Val.scalar (Scalar.int 8))]
        [[("a", Val.scalar (Scalar.int 8))]] :=
  C9_keyerror_conditions _ _ _ (by decide) (by decide)

/-- C4 counterexample: the exclusion rule `{"b": 1}` mentions the key "b"
absent from every RunConfig of the two-entry queue over the key "a"; the
claim predicts a clean non-match, but the code raises a KeyError on
`run_config["b"]`. -/
theorem C4_counterexample :
    excludeConfigs [[("b", Val.scalar (Scalar.int 1))]]
      [[("a", Val.scalar (Scalar.int 1))], [("a", Val.scalar (Scalar.int 2))]] =
      .error () ∧
    lookup [("a", Val.scalar (Scalar.int 1))] "b" = none :=
  ⟨rfl, rfl⟩

/-- C4, amended: provided every rule key occurs in every queued RunConfig, a
queue of length ≥ 2 is filtered to exactly the RunConfigs matched by no rule,
where a rule matches iff all its keys carry equal values in the RunConfig
(RunConfig keys not mentioned by the rule are ignored), and the result is
unchanged under any permutation of the rule list; a rule key absent from some
RunConfig, however, raises a KeyError instead of being treated as a
non-match. -/
theorem C4_exclusion_filter (rules rules1 : List Dict) (q : List Dict)
    (hlen : 2 ≤ q.length)
    (hcov : ∀ c ∈ q, ∀ r ∈ rules, ∀ kv ∈ r, (lookup c kv.1).isSome)
    (hperm : rules.Perm rules1) :
    excludeConfigs rules q = .ok (q.filter fun c => !(specMatchedAny rules c)) ∧
    excludeConfigs rules1 q = excludeConfigs rules q := by
  have main : ∀ (rs : List Dict),
      (∀ c ∈ q, ∀ r ∈ rs, ∀ kv ∈ r, (lookup c kv.1).isSome) →
      excludeConfigs rs q = .ok (q.filter fun c => !(specMatchedAny rs c)) := by
    intro rs hc
    match rs with
    | [] =>
        simp only [excludeConfigs]
        rw [if_neg (by simp)]
        simp [specMatchedAny, List.filter_true]
    | r0 :: rs1 =>
        simp only [excludeConfigs]
        rw [if_pos ⟨by simp, by omega⟩]
        rw [computeMatched_of_covered q (r0 :: rs1)
          (fun c hcq r hr kv hkv => hc c hcq r hr kv hkv)]
        show Except.ok (removeEach (q.filter (specMatchedAny (r0 :: rs1))) q) = _
        rw [removeEach_filter]
  have hcov1 : ∀ c ∈ q, ∀ r ∈ rules1, ∀ kv ∈ r, (lookup c kv.1).isSome :=
    fun c hc r hr kv hkv => hcov c hc r (hperm.mem_iff.mpr hr) kv hkv
  have h1 := main rules hcov
  have h2 := main rules1 hcov1
  refine ⟨h1, ?_⟩
  rw [h1, h2]
  have hany : ∀ c, specMatchedAny rules1 c = specMatchedAny rules c :=
    fun c => (any_perm_congr hperm (specRuleMatch c)).symm
  rw [List.filter_congr (fun c _ => by rw [hany c])]

/-- Witness for C4_exclusion_filter: the rules `[{"a": 1}, {"a": 3}]` (and a
permutation of them) over the generated-shape queue `[{"a": 1}, {"a": 2}]`. -/
theorem C4_exclusion_filter_witness :
    excludeConfigs [[("a", Val.scalar (Scalar.int 1))], [("a", Val.scalar (Scalar.int 3))]]
      [[("a", Val.scalar (Scalar.int 1))], [("a", Val.scalar (Scalar.int 2))]] =
      .ok ([[("a", Val.scalar (Scalar.int 1))], [("a", Val.scalar (Scalar.int 2))]].filter
        fun c => !(specMatchedAny
          [[("a", Val.scalar (Scalar.int 1))], [("a", Val.scalar (Scalar.int 3))]] c)) ∧
    excludeConfigs [[("a", Val.scalar (Scalar.int 3))], [("a", Val.scalar (Scalar.int 1))]]
      [[("a", Val.scalar (Scalar.int 1))], [("a", Val.scalar (Scalar.int 2))]] =
      excludeConfigs [[("a", Val.scalar (Scalar.int 1))], [("a", Val.scalar (Scalar.int 3))]]
        [[("a", Val.scalar (Scalar.int 1))], [("a", Val.scalar (Scalar.int 2))]] :=
  C4_exclusion_filter _ _ _ (by norm_num) (by decide) (by decide)

/-- C7: a document whose keys are all scalar except one key K carrying an
array of length n ≥ 1 expands to exactly the n configurations that copy every
scalar entry verbatim and differ only in the value of K (in array order), with
permutable-key set exactly \x7bK\x7d; and a document with only scalar values
expands to exactly its own single configuration with an empty permutable-key
set. -/
theorem C7_single_array_key :
    (∀ (pre post : List (String × Val)) (K : String) (vs : List Scalar),
       vs ≠ [] →
       (∀ p ∈ pre ++ post, ∀ ws, p.2 ≠ Val.list ws) →
       ((pre ++ (K, Val.list vs) :: post).map Prod.fst).Nodup →
       genPerms (pre ++ (K, Val.list vs) :: post) [] ∅ =
         (vs.map fun s => pre ++ (K, Val.scalar s) :: post, {K})) ∧
    (∀ (doc : List (String × Val)),
       (∀ p ∈ doc, ∀ ws, p.2 ≠ Val.list ws) →
       (doc.map Prod.fst).Nodup →
       genPerms doc [] ∅ = ([doc], ∅)) := by
  constructor
  · intro pre post K vs hvs hscal hnd
    have hpre : ∀ p ∈ pre, ∀ ws, p.2 ≠ Val.list ws :=
      fun p hp => hscal p (List.mem_append_left _ hp)
    have hpost : ∀ p ∈ post, ∀ ws, p.2 ≠ Val.list ws :=
      fun p hp => hscal p (List.mem_append_right _ hp)
    simp only [List.map_append, List.map_cons] at hnd
    rw [List.nodup_append] at hnd
    obtain ⟨hpreNd, hconsNd, hdisj⟩ := hnd
    rw [List.nodup_cons] at hconsNd
    obtain ⟨hKpost, hpostNd⟩ := hconsNd
    have hKpre : K ∉ pre.map Prod.fst :=
      fun hin => hdisj hin (List.mem_cons_self _ _)
    have hinner : ∀ val : Val, expand post (dictSet pre K val) =
        [pre ++ (K, val) :: post] := by
      intro val
      rw [dictSet_of_not_mem K val pre hKpre]
      rw [expand_scalar_all post hpost]
      rw [assignAll_eq_append post (pre ++ [(K, val)]) hpostNd ?hd]
      case hd =>
        intro k hk
        simp only [List.map_append, List.map_cons, List.map_nil, List.mem_append,
          List.mem_singleton]
        push_neg
        constructor
        · exact fun hkpre => hdisj hkpre (List.mem_cons_of_mem _ hk)
        · intro hkK
          exact hKpost (hkK ▸ hk)
      rw [List.append_assoc]
      rfl
    refine Prod.ext ?_ ?_
    · rw [genPerms_fst]
      rw [expand_scalar_seg pre hpre ((K, Val.list vs) :: post) []]
      rw [assignAll_eq_append pre [] hpreNd (by simp)]
      simp only [List.nil_append, expand, branches]
      rw [funext hinner, flatMap_singleton_map (vs.map Val.scalar)
        (fun val => pre ++ (K, val) :: post), List.map_map]
      rfl
    · have hne : ∀ p ∈ pre ++ (K, Val.list vs) :: post, p.2 ≠ Val.list [] := by
        intro p hp
        rcases List.mem_append.mp hp with h1 | h2
        · exact hpre p h1 []
        · rcases List.mem_cons.mp h2 with h3 | h4
          · rw [h3]
            intro hh
            simp only [Val.list.injEq] at hh
            exact hvs hh
          · exact hpost p h4 []
      rw [genPerms_snd _ hne [] ∅, Finset.empty_union,
        specPermutableKeys_nonlist_seg pre hpre]
      cases vs with
      | nil => exact absurd rfl hvs
      | cons s ss =>
          simp only [specPermutableKeys]
          have hpe : specPermutableKeys post = ∅ := by
            have hh := specPermutableKeys_nonlist_seg post hpost []
            rw [List.append_nil] at hh
            exact hh
          rw [hpe]
          simp
  · intro doc h hnd
    refine Prod.ext ?_ ?_
    · rw [genPerms_fst, expand_scalar_all doc h [],
        assignAll_eq_append doc [] hnd (by simp)]
      rw [List.nil_append]
    · rw [genPerms_snd doc (fun p hp => h p hp []) [] ∅, Finset.empty_union]
      have hh := specPermutableKeys_nonlist_seg doc h []
      rw [List.append_nil] at hh
      exact hh

/-- Witness for C7_single_array_key: the document `{"b": 5, "K": [1, 2]}`
expands to two configurations differing only at "K", with permutable-key set
\x7b"K"\x7d. -/
theorem C7_single_array_key_witness :
    genPerms ([("b", Val.scalar (Scalar.int 5))] ++
        ("K", Val.list [Scalar.int 1, Scalar.int 2]) :: []) [] ∅ =
      ([Scalar.int 1, Scalar.int 2].map fun s =>
        [("b", Val.scalar (Scalar.int 5))] ++ ("K", Val.scalar s) :: [], {"K"}) :=
  C7_single_array_key.1 [("b", Val.scalar (Scalar.int 5))] [] "K"
    [Scalar.int 1, Scalar.int 2] (by simp)
    (by
      intro p hp ws
      simp only [List.append_nil, List.mem_singleton] at hp
      rw [hp]
      simp)
    (by decide)

/-- C8: once gen_run_configs has produced a result, a second call on the
resulting reader state — under any shuffle whatsoever — recomputes nothing:
it leaves the state untouched and returns the stored run_configs and
permutable_keys fields (which, for the in-place mutating source, means the
identical objects the first call returned). -/
theorem C8_memoized (f g : List Dict → List Dict) (s s1 : ConfigReaderState)
    (q : List Dict) (pk : Finset String)
    (h : genRunConfigs f s = .ok (s1, (q, pk))) :
    genRunConfigs g s1 = .ok (s1, (q, pk)) := by
  simp only [genRunConfigs] at h
  by_cases hg : s.generated
  · rw [if_pos hg] at h
    simp only [Except.ok.injEq, Prod.mk.injEq] at h
    obtain ⟨hs, hq, hpk⟩ := h
    subst hs
    simp only [genRunConfigs, if_pos hg]
    rw [hq, hpk]
  · rw [if_neg hg] at h
    match hex : excludeConfigs s.excludeRules
        (genRunConfigsPure s.data s.permutable_keys).1 with
    | .error e => rw [hex] at h; exact absurd h (by simp)
    | .ok q0 =>
        rw [hex] at h
        simp only [Except.ok.injEq, Prod.mk.injEq] at h
        obtain ⟨hs, hq, hpk⟩ := h
        have hgen : s1.generated = true := by rw [← hs]
        have hrun : s1.run_configs = q := by rw [← hs]; exact hq
        have hpk1 : s1.permutable_keys = pk := by rw [← hs]; exact hpk
        simp only [genRunConfigs, if_pos hgen]
        rw [hrun, hpk1]

/-- Witness for C8_memoized: a reader state whose memo flag is already set
returns its stored queue and key set unchanged. -/
theorem C8_memoized_witness :
    genRunConfigs (fun q => q)
      ⟨[("a", Val.scalar (Scalar.int 1))], [],
        [[("a", Val.scalar (Scalar.int 1))]], ∅, true⟩ =
      .ok (⟨[("a", Val.scalar (Scalar.int 1))], [],
        [[("a", Val.scalar (Scalar.int 1))]], ∅, true⟩,
        ([[("a", Val.scalar (Scalar.int 1))]], ∅)) :=
  C8_memoized (fun q => q) (fun q => q)
    ⟨[("a", Val.scalar (Scalar.int 1))], [],
      [[("a", Val.scalar (Scalar.int 1))]], ∅, true⟩
    ⟨[("a", Val.scalar (Scalar.int 1))], [],
      [[("a", Val.scalar (Scalar.int 1))]], ∅, true⟩
    [[("a", Val.scalar (Scalar.int 1))]] ∅ rfl

/-- C1 counterexample: a watcher step that observes a changed timestamp and a
failing reload (`ConfigReader.__init__` raising) does not complete the loop
iteration: the exception escapes `run` (the `Except.error` result), killing
the polling thread — the failure is propagated, not merely logged, and no
retry at a later timestamp change can occur.  The published reader is
retained (`config_reader` was never reassigned), and `self._mtime` was
already advanced before the reload attempt. -/
theorem C1_counterexample :
    watcherStep ⟨0, ⟨[], [], [], ∅, false⟩, false⟩ 1 (Except.error ())
        (fun r => Except.ok r) =
      Except.error ((), ⟨1, ⟨[], [], [], ∅, false⟩, false⟩) ∧
    getConfigReader ⟨1, ⟨[], [], [], ∅, false⟩, false⟩ =
      getConfigReader ⟨0, ⟨[], [], [], ∅, false⟩, false⟩ :=
  ⟨rfl, rfl⟩

/-- C1, amended: when a reload triggered by a timestamp change throws during
`ConfigReader` construction, the previously published reader is indeed
retained — `get_config_reader` still returns the last-good reader, and the
already-advanced `_mtime` means an eventual restart would only reconsider the
file at its next timestamp change — but the exception propagates out of the
`run` loop (there is no handler), terminating the watcher thread instead of
being logged and retried. -/
theorem C1_reload_failure (s : WatcherState) (m : Nat)
    (reconcile : ConfigReaderState → Except Unit ConfigReaderState)
    (h : s.mtime ≠ m) :
    watcherStep s m (Except.error ()) reconcile =
      Except.error ((), { s with mtime := m }) ∧
    getConfigReader { s with mtime := m } = getConfigReader s := by
  constructor
  · simp only [watcherStep]
    rw [if_pos h]
  · rfl

/-- Witness for C1_reload_failure at a concrete watcher state and timestamp. -/
theorem C1_reload_failure_witness :
    watcherStep ⟨3, ⟨[], [], [], ∅, true⟩, true⟩ 4 (Except.error ())
        (fun r => Except.ok r) =
      Except.error ((), ⟨4, ⟨[], [], [], ∅, true⟩, true⟩) ∧
    getConfigReader ⟨4, ⟨[], [], [], ∅, true⟩, true⟩ =
      getConfigReader ⟨3, ⟨[], [], [], ∅, true⟩, true⟩ :=
  C1_reload_failure ⟨3, ⟨[], [], [], ∅, true⟩, true⟩ 4 (fun r => Except.ok r)
    (by decide)

end Furcate
